import Mathlib

/-!
Verification of the Rapfi search-heuristic core against its specification.

The development shallowly embeds the relevant parts of the source:
* `search/history.h` — the saturating history statistic (`HistTable::Entry`)
  and the shapes of the concrete history tables;
* `search/ab/parameter.h` — the pure search-control formulas
  (`nextAspirationWindowDelta`, `razorMargin`, `FutilityMC`,
  `futilityMoveCount`, the LMR `reduction`);
* the incremental evaluator's make/undo and deferred move cache, modelled
  from the specification (its source is not part of the provided tree).

C++ `int` arithmetic is embedded as `ℤ` (division `/` on `int` truncates
toward zero, which is `Int.tdiv`); the `float`-valued `Depth` type is
embedded as `ℚ` with exact arithmetic, and the C++ conversion `int(d)`
(truncation toward zero) as `cppTrunc` below.
-/

namespace Rapfi

/-- The `Range` template parameter of `MainHistory` and `MoveHistory`
in `search/history.h` (`HistTable<int16_t, 10692, ...>`). -/
def mainHistoryRange : ℤ := 10692

/-- `HistTable::Entry::operator<<` from `search/history.h`:
`value += bonus - value * std::abs(bonus) / Range;`
with C++ integer division (truncation toward zero, i.e. `Int.tdiv`). -/
def entryUpdate (Range value bonus : ℤ) : ℤ :=
  value + (bonus - (value * |bonus|).tdiv Range)

/-- `nextAspirationWindowDelta` from `search/ab/parameter.h`:
`prevDelta ? prevDelta * 3 / 2 + 5 : Value(17)` with C++ truncated division. -/
def nextAspirationWindowDelta (prevDelta : ℤ) : ℤ :=
  if prevDelta ≠ 0 then (prevDelta * 3).tdiv 2 + 5 else 17

/-- The C++ conversion `int(q)` on a real-valued quantity: truncation toward
zero (`⌊q⌋` for nonnegative `q`, `⌈q⌉` for negative `q`). -/
def cppTrunc (q : ℚ) : ℤ :=
  if 0 ≤ q then ⌊q⌋ else ⌈q⌉

/-- `MARGIN_INFINITE = Value(INT16_MAX)` from `search/ab/parameter.h`. -/
def MARGIN_INFINITE : ℤ := 32767

/-- `razorMargin` from `search/ab/parameter.h`:
`d < 3.36f ? Value(std::max(int(0.125f * d * d + 46 * d) + 49, 0)) : MARGIN_INFINITE`
(`3.36 = 84/25`, `0.125 = 1/8`). -/
def razorMargin (d : ℚ) : ℤ :=
  if d < 84 / 25 then max (cppTrunc (1 / 8 * d * d + 46 * d) + 49) 0
  else MARGIN_INFINITE

/-- Exact value of `int(std::pow(i, 1.4))` in real arithmetic:
`⌊i^(7/5)⌋` is the greatest `n` with `n^5 ≤ i^7` (the argument is
nonnegative, so truncation is the floor). -/
def intPow14 (i : ℕ) : ℕ :=
  Nat.findGreatest (fun n => n ^ 5 ≤ i ^ 7) (i * i)

/-- The `FutilityMC` lookup table from `search/ab/parameter.h`:
entry `0` stays at its zero initialization (the fill loop starts at `i = 1`),
and entry `i ≥ 1` is `3 + int(pow(i, 1.4))`, with the power evaluated in
exact real arithmetic. -/
def FutilityMC (i : ℕ) : ℕ :=
  if i = 0 then 0 else 3 + intPow14 i

/-- `futilityMoveCount` from `search/ab/parameter.h`:
`FutilityMC[std::max(int(d), 0)] / (2 - improving)`. -/
def futilityMoveCount (d : ℚ) (improving : Bool) : ℕ :=
  FutilityMC (max (cppTrunc d) 0).toNat / (2 - (if improving then 1 else 0))

/-- The LMR `reduction<PvNode>` from `search/ab/parameter.h`:
`r = lut[(int)d] * lut[moveCount]`; a PV node returns
`std::max(r - Depth(delta) / Depth(rootDelta), 0.0f)`, a non-PV node
returns `r + (improvement <= 0 && r > 1.0f)`. -/
def reductionLMR (pvNode : Bool) (lut : ℕ → ℚ) (d : ℚ) (moveCount : ℕ)
    (improvement : ℤ) (delta rootDelta : ℤ) : ℚ :=
  let r := lut (cppTrunc d).toNat * lut moveCount
  if pvNode then max (r - (delta : ℚ) / (rootDelta : ℚ)) 0
  else r + (if improvement ≤ 0 ∧ 1 < r then 1 else 0)

/-- Modelled from the spec: `SIDE_NB` is declared in `core/types.h`, which is
not part of the provided tree; the game has exactly two sides. -/
def SIDE_NB : ℕ := 2

/-- `MOVE_HIST_TYPE_NB` from the `MoveHistoryType` enum in `search/history.h`
(`HIST_ATTACK`, `HIST_QUIET`). -/
def MOVE_HIST_TYPE_NB : ℕ := 2

/-- `OPPO4_NB` from the `Oppo4HistoryType` enum in `search/history.h`
(`OPPO4_NO`, `OPPO4_YES`). -/
def OPPO4_NB : ℕ := 2

/-- Modelled from the spec: `FULL_BOARD_CELL_COUNT` is declared in
`core/types.h`, which is not part of the provided tree; the fixed-size full
board backing the history tables (a 32×32 grid). None of the claims below
depends on its exact value. -/
def FULL_BOARD_CELL_COUNT : ℕ := 32 * 32

/-- The compile-time signature of a `HistTable<T, Range, Shape...>`
instantiation: its value range and its dimension list. -/
structure TableSig where
  range : ℕ
  dims : List ℕ
deriving DecidableEq

/-- `MainHistory = HistTable<int16_t, 10692, SIDE_NB, FULL_BOARD_CELL_COUNT,
MOVE_HIST_TYPE_NB>` from `search/history.h`. -/
def MainHistorySig : TableSig :=
  ⟨10692, [SIDE_NB, FULL_BOARD_CELL_COUNT, MOVE_HIST_TYPE_NB]⟩

/-- `MoveHistory = HistTable<int16_t, 10692, FULL_BOARD_CELL_COUNT>` from
`search/history.h`. -/
def MoveHistorySig : TableSig :=
  ⟨10692, [FULL_BOARD_CELL_COUNT]⟩

/-- `ContinuationHistory = HistTable<MoveHistory, 0, OPPO4_NB,
FULL_BOARD_CELL_COUNT>` from `search/history.h`: the outer dimension list.
Indexing the outer table by the opponent-four flag and the previous move's
cell yields an element of type `MoveHistory`. -/
def ContinuationHistoryOuterDims : List ℕ :=
  [OPPO4_NB, FULL_BOARD_CELL_COUNT]

/-- The signature of the sub-table obtained from `ContinuationHistory` by
indexing with the opponent-four flag and the previous move's cell: its
element type is `MoveHistory`. -/
def ContinuationHistorySubSig : TableSig :=
  MoveHistorySig

/-- Modelled from the spec: the stone colors seen by the evaluator's board
delta records (the evaluator sources are not part of the provided tree). -/
inductive Color where
  | black
  | white
  | empty
deriving DecidableEq

/-- Modelled from the spec: a per-cell feature extractor — the line-shape
feature of a cell as a function of the board. The evaluator folds feature
deltas of this map into its accumulator. -/
def Feat : Type :=
  (Fin FULL_BOARD_CELL_COUNT → Color) → Fin FULL_BOARD_CELL_COUNT → ℤ

/-- Modelled from the spec: the evaluator's per-side accumulator state — the
board it has incrementally applied, the per-cell feature map, and the
board-wide value-feature sum (the evaluator sources are not part of the
provided tree). -/
structure Accumulator where
  board : Fin FULL_BOARD_CELL_COUNT → Color
  featureMap : Fin FULL_BOARD_CELL_COUNT → ℤ
  valueSum : ℤ

/-- Modelled from the spec: `applyMove` places a stone of color `c` at cell
`p` and folds, for every cell, the feature delta (new minus old feature)
into the per-cell feature map and into the value-feature sum. -/
def applyMove (feat : Feat) (p : Fin FULL_BOARD_CELL_COUNT) (c : Color)
    (acc : Accumulator) : Accumulator :=
  { board := Function.update acc.board p c
    featureMap := fun q =>
      acc.featureMap q + (feat (Function.update acc.board p c) q - feat acc.board q)
    valueSum := acc.valueSum
      + ∑ q : Fin FULL_BOARD_CELL_COUNT,
          (feat (Function.update acc.board p c) q - feat acc.board q) }

/-- Modelled from the spec: `undoMove` removes the stone at cell `p`
(restoring the empty color there) and folds the resulting feature deltas,
exactly like `applyMove`. -/
def undoMove (feat : Feat) (p : Fin FULL_BOARD_CELL_COUNT)
    (acc : Accumulator) : Accumulator :=
  applyMove feat p Color.empty acc

/-- Modelled from the spec: a deferred board delta recorded in the
evaluator's move cache — previous color, new color, and the cell. -/
structure MoveCacheEntry where
  oldColor : Color
  newColor : Color
  pos : Fin FULL_BOARD_CELL_COUNT
deriving DecidableEq

/-- The exact inverse of a cache entry: same cell, colors swapped. -/
def MoveCacheEntry.inv (e : MoveCacheEntry) : MoveCacheEntry :=
  ⟨e.newColor, e.oldColor, e.pos⟩

/-- Modelled from the spec: recording a delta in the deferred move cache
(most recent entry first). A new entry that is the exact inverse of the
most recent pending entry cancels it and is dropped; otherwise it is
appended. -/
def recordEntry (cache : List MoveCacheEntry) (e : MoveCacheEntry) :
    List MoveCacheEntry :=
  match cache with
  | [] => [e]
  | x :: rest => if e = x.inv then rest else e :: x :: rest

/-- Modelled from the spec: the delta recorded by `beforeMove` — a stone of
color `c` is about to be placed on the empty cell `p`. -/
def beforeMoveEntry (p : Fin FULL_BOARD_CELL_COUNT) (c : Color) : MoveCacheEntry :=
  ⟨Color.empty, c, p⟩

/-- Modelled from the spec: the delta recorded by `afterUndo` — the stone of
color `c` at cell `p` has just been removed. -/
def afterUndoEntry (p : Fin FULL_BOARD_CELL_COUNT) (c : Color) : MoveCacheEntry :=
  ⟨c, Color.empty, p⟩

/-- The invariant of every reachable deferred cache: no entry is the exact
inverse of the entry recorded immediately before it (such a pair would have
cancelled at record time). -/
def NoConsecInverse : List MoveCacheEntry → Prop
  | [] => True
  | [_] => True
  | x :: y :: rest => x ≠ y.inv ∧ NoConsecInverse (y :: rest)

lemma entryUpdate_neg (R v b : ℤ) : entryUpdate R (-v) (-b) = -entryUpdate R v b := by
  unfold entryUpdate
  rw [abs_neg, Int.neg_mul, Int.neg_tdiv]
  ring

lemma entryUpdate_abs_le_of_nonneg {R v b : ℤ} (hR : 0 < R) (hv : |v| ≤ R)
    (hb : b ≤ R) (hb0 : 0 ≤ b) : |entryUpdate R v b| ≤ R := by
  have habs : |b| = b := abs_of_nonneg hb0
  rw [abs_le] at hv ⊢
  obtain ⟨hv1, hv2⟩ := hv
  unfold entryUpdate
  rw [habs]
  rcases le_or_lt 0 v with hv0 | hv0
  · have hdiv : (v * b).tdiv R = v * b / R := Int.tdiv_eq_ediv (mul_nonneg hv0 hb0) hR.le
    rw [hdiv]
    have h1 : v * b / R * R ≤ v * b := Int.ediv_mul_le _ hR.ne'
    have h2 : v * b ≤ v * R := mul_le_mul_of_nonneg_left hb hv0
    have hq : v * b / R ≤ v := le_of_mul_le_mul_right (le_trans h1 h2) hR
    constructor
    · linarith
    · have key : (v + b - R) * R ≤ v * b := by
        nlinarith [mul_nonneg (sub_nonneg.2 hv2) (sub_nonneg.2 hb)]
      have := (Int.le_ediv_iff_mul_le hR).2 key
      linarith
  · have hvneg : 0 ≤ -v := by linarith
    have htd : (v * b).tdiv R = -((-v) * b / R) := by
      rw [← Int.tdiv_eq_ediv (mul_nonneg hvneg hb0) hR.le, Int.neg_mul, Int.neg_tdiv, neg_neg]
    rw [htd]
    have hq0 : 0 ≤ (-v) * b / R := Int.ediv_nonneg (mul_nonneg hvneg hb0) hR.le
    have h1 : (-v) * b / R * R ≤ (-v) * b := Int.ediv_mul_le _ hR.ne'
    have h2 : (-v) * b ≤ (-v) * R := mul_le_mul_of_nonneg_left hb hvneg
    have hq : (-v) * b / R ≤ -v := le_of_mul_le_mul_right (le_trans h1 h2) hR
    constructor
    · linarith
    · linarith

lemma entryUpdate_abs_le {R v b : ℤ} (hR : 0 < R) (hv : |v| ≤ R) (hb : |b| ≤ R) :
    |entryUpdate R v b| ≤ R := by
  rcases le_or_lt 0 b with hb0 | hb0
  · exact entryUpdate_abs_le_of_nonneg hR hv ((abs_le.1 hb).2) hb0
  · have hnv : |(-v)| ≤ R := by rwa [abs_neg]
    have hnb : -b ≤ R := by
      have := (abs_le.1 hb).1
      linarith
    have h := entryUpdate_abs_le_of_nonneg hR hnv hnb (by linarith)
    rw [entryUpdate_neg, abs_neg] at h
    exact h

lemma foldl_entryUpdate_abs_le {R : ℤ} (hR : 0 < R) :
    ∀ (bs : List ℤ) (v : ℤ), |v| ≤ R → (∀ x ∈ bs, |x| ≤ R) →
      |bs.foldl (entryUpdate R) v| ≤ R := by
  intro bs
  induction bs with
  | nil => intro v hv _; simpa using hv
  | cons b rest ih =>
    intro v hv hall
    simp only [List.foldl_cons]
    exact ih _ (entryUpdate_abs_le hR hv (hall b (by simp)))
      (fun x hx => hall x (by simp [hx]))

/-- C1: for `|v| ≤ Range` and `|b| ≤ Range`, `Entry::operator<<` replaces `v` by
`v + b - v*|b|/Range` (truncated integer division), the result again satisfies
`|value| ≤ Range`, and hence `|value| ≤ Range` holds after any finite sequence
of valid updates starting from a zero-initialized entry. -/
theorem entryUpdate_formula_and_range_invariant (v b : ℤ)
    (hv : |v| ≤ mainHistoryRange) (hb : |b| ≤ mainHistoryRange) :
    entryUpdate mainHistoryRange v b = v + b - (v * |b|).tdiv mainHistoryRange
    ∧ |entryUpdate mainHistoryRange v b| ≤ mainHistoryRange
    ∧ ∀ bs : List ℤ, (∀ x ∈ bs, |x| ≤ mainHistoryRange) →
        |bs.foldl (entryUpdate mainHistoryRange) 0| ≤ mainHistoryRange := by
  have hR : (0 : ℤ) < mainHistoryRange := by norm_num [mainHistoryRange]
  refine ⟨by unfold entryUpdate; ring, entryUpdate_abs_le hR hv hb, ?_⟩
  intro bs hall
  exact foldl_entryUpdate_abs_le hR bs 0 (by simpa using hR.le) hall

theorem entryUpdate_formula_and_range_invariant_witness :
    |(5000 : ℤ)| ≤ mainHistoryRange ∧ |(-3000 : ℤ)| ≤ mainHistoryRange
    ∧ (entryUpdate mainHistoryRange 5000 (-3000)
         = 5000 + (-3000) - ((5000 : ℤ) * |(-3000 : ℤ)|).tdiv mainHistoryRange
       ∧ |entryUpdate mainHistoryRange 5000 (-3000)| ≤ mainHistoryRange
       ∧ ∀ bs : List ℤ, (∀ x ∈ bs, |x| ≤ mainHistoryRange) →
           |bs.foldl (entryUpdate mainHistoryRange) 0| ≤ mainHistoryRange) :=
  ⟨by decide, by decide,
    entryUpdate_formula_and_range_invariant 5000 (-3000) (by decide) (by decide)⟩

/-- C10: the extreme bonuses `±Range` are absorbing: applying bonus `+Range`
(resp. `-Range`) to any in-range entry value sets it to exactly `+Range`
(resp. `-Range`). -/
theorem entryUpdate_extreme_bonus_absorbing (v : ℤ) (hv : |v| ≤ mainHistoryRange) :
    entryUpdate mainHistoryRange v mainHistoryRange = mainHistoryRange
    ∧ entryUpdate mainHistoryRange v (-mainHistoryRange) = -mainHistoryRange := by
  have hR : (mainHistoryRange : ℤ) ≠ 0 := by norm_num [mainHistoryRange]
  have habs : |mainHistoryRange| = mainHistoryRange := by norm_num [mainHistoryRange]
  constructor
  · unfold entryUpdate
    rw [habs, Int.mul_tdiv_cancel v hR]
    ring
  · unfold entryUpdate
    rw [abs_neg, habs, Int.mul_tdiv_cancel v hR]
    ring

theorem entryUpdate_extreme_bonus_absorbing_witness :
    |(1234 : ℤ)| ≤ mainHistoryRange
    ∧ (entryUpdate mainHistoryRange 1234 mainHistoryRange = mainHistoryRange
       ∧ entryUpdate mainHistoryRange 1234 (-mainHistoryRange) = -mainHistoryRange) :=
  ⟨by decide, entryUpdate_extreme_bonus_absorbing 1234 (by decide)⟩

/-- C3: `nextAspirationWindowDelta 0 = 17`; for nonzero `p` it returns
`p*3/2 + 5` in integer arithmetic; in particular at `17` it returns `30`. -/
theorem nextAspirationWindowDelta_spec :
    nextAspirationWindowDelta 0 = 17
    ∧ (∀ p : ℤ, p ≠ 0 → nextAspirationWindowDelta p = (p * 3).tdiv 2 + 5)
    ∧ nextAspirationWindowDelta 17 = 30 := by
  refine ⟨by decide, ?_, by decide⟩
  intro p hp
  simp [nextAspirationWindowDelta, hp]

theorem nextAspirationWindowDelta_spec_witness :
    nextAspirationWindowDelta 17 = ((17 : ℤ) * 3).tdiv 2 + 5 :=
  nextAspirationWindowDelta_spec.2.1 17 (by decide)

/-- C9: once the previous delta is at least `1`, the next aspiration delta is
at least `p + 5`; in particular the window half-width strictly increases on
every re-search once it is nonzero. -/
theorem nextAspirationWindowDelta_strict_growth (p : ℤ) (hp : 1 ≤ p) :
    p + 5 ≤ nextAspirationWindowDelta p ∧ p < nextAspirationWindowDelta p := by
  have hp0 : p ≠ 0 := by omega
  have h3 : (0 : ℤ) ≤ p * 3 := by linarith
  have hed : (p * 3).tdiv 2 = p * 3 / 2 := Int.tdiv_eq_ediv h3 (by norm_num)
  have hle : p ≤ p * 3 / 2 := (Int.le_ediv_iff_mul_le (by norm_num : (0:ℤ) < 2)).2 (by linarith)
  rw [nextAspirationWindowDelta, if_pos hp0, hed]
  constructor <;> linarith

theorem nextAspirationWindowDelta_strict_growth_witness :
    (1 : ℤ) ≤ 17
    ∧ ((17 : ℤ) + 5 ≤ nextAspirationWindowDelta 17
       ∧ (17 : ℤ) < nextAspirationWindowDelta 17) :=
  ⟨by decide, nextAspirationWindowDelta_strict_growth 17 (by decide)⟩

lemma cppTrunc_le_cppTrunc {a b : ℚ} (h : a ≤ b) : cppTrunc a ≤ cppTrunc b := by
  unfold cppTrunc
  by_cases ha : 0 ≤ a
  · rw [if_pos ha, if_pos (le_trans ha h)]
    exact Int.floor_le_floor h
  · rw [if_neg ha]
    by_cases hb : 0 ≤ b
    · rw [if_pos hb]
      calc ⌈a⌉ ≤ 0 := Int.ceil_le.2 (by exact_mod_cast le_of_lt (lt_of_not_ge ha))
        _ ≤ ⌊b⌋ := Int.floor_nonneg.2 hb
    · rw [if_neg hb]
      exact Int.ceil_le_ceil h

lemma cppTrunc_eq_floor {q : ℚ} (h : 0 ≤ q) : cppTrunc q = ⌊q⌋ :=
  if_pos h

/-- C2: above depth `3.36` the razoring margin is the infinite sentinel; on
`[0, 3.36)` it is the floor-0 quadratic formula and is monotonically
non-decreasing in the depth. -/
theorem razorMargin_spec :
    (∀ d : ℚ, 84 / 25 ≤ d → razorMargin d = MARGIN_INFINITE)
    ∧ (∀ d : ℚ, 0 ≤ d → d < 84 / 25 →
        razorMargin d = max (cppTrunc (1 / 8 * d * d + 46 * d) + 49) 0)
    ∧ (∀ d1 d2 : ℚ, 0 ≤ d1 → d1 ≤ d2 → d2 < 84 / 25 →
        razorMargin d1 ≤ razorMargin d2) := by
  refine ⟨fun d hd => by rw [razorMargin, if_neg (not_lt.2 hd)],
          fun d _ hd => by rw [razorMargin, if_pos hd], ?_⟩
  intro d1 d2 h0 h12 h2
  have h1lt : d1 < 84 / 25 := lt_of_le_of_lt h12 h2
  rw [razorMargin, if_pos h1lt, razorMargin, if_pos h2]
  have hmono : 1 / 8 * d1 * d1 + 46 * d1 ≤ 1 / 8 * d2 * d2 + 46 * d2 := by nlinarith
  exact max_le_max (add_le_add_right (cppTrunc_le_cppTrunc hmono) 49) le_rfl

theorem razorMargin_spec_witness :
    razorMargin 4 = MARGIN_INFINITE
    ∧ razorMargin 2 = max (cppTrunc (1 / 8 * 2 * 2 + 46 * 2) + 49) 0
    ∧ razorMargin 1 ≤ razorMargin 2 :=
  ⟨razorMargin_spec.1 4 (by norm_num),
   razorMargin_spec.2.1 2 (by norm_num) (by norm_num),
   razorMargin_spec.2.2 1 2 (by norm_num) (by norm_num) (by norm_num)⟩

lemma intPow14_le (i : ℕ) : intPow14 i ^ 5 ≤ i ^ 7 :=
  @Nat.findGreatest_spec 0 (fun n => n ^ 5 ≤ i ^ 7) _ (i * i) (Nat.zero_le _) (by simp)

lemma intPow14_mono {i j : ℕ} (h : i ≤ j) : intPow14 i ≤ intPow14 j :=
  @Nat.le_findGreatest (intPow14 i) (fun n => n ^ 5 ≤ j ^ 7) _ (j * j)
    (le_trans (Nat.findGreatest_le _) (Nat.mul_le_mul h h))
    (le_trans (intPow14_le i) (Nat.pow_le_pow_left h 7))

lemma FutilityMC_mono {i j : ℕ} (h : i ≤ j) : FutilityMC i ≤ FutilityMC j := by
  unfold FutilityMC
  by_cases hi : i = 0
  · simp [hi]
  · have hj : j ≠ 0 := by omega
    rw [if_neg hi, if_neg hj]
    exact Nat.add_le_add_left (intPow14_mono h) 3

/-- C4: `futilityMoveCount` is non-decreasing in the depth for a fixed
improving flag, and for a fixed depth the value with `improving = true`
dominates the value with `improving = false`. -/
theorem futilityMoveCount_mono :
    (∀ (improving : Bool) (d1 d2 : ℚ), d1 ≤ d2 →
        futilityMoveCount d1 improving ≤ futilityMoveCount d2 improving)
    ∧ (∀ d : ℚ, futilityMoveCount d false ≤ futilityMoveCount d true) := by
  constructor
  · intro imp d1 d2 h
    unfold futilityMoveCount
    apply Nat.div_le_div_right
    apply FutilityMC_mono
    exact Int.toNat_le_toNat (max_le_max (cppTrunc_le_cppTrunc h) le_rfl)
  · intro d
    unfold futilityMoveCount
    simp only [if_true, if_false]
    norm_num
    exact Nat.div_le_self _ 2

theorem futilityMoveCount_mono_witness :
    futilityMoveCount 2 false ≤ futilityMoveCount 3 false
    ∧ futilityMoveCount 3 false ≤ futilityMoveCount 3 true :=
  ⟨futilityMoveCount_mono.1 false 2 3 (by norm_num), futilityMoveCount_mono.2 3⟩

/-- C8: for every depth below `1` (negative depths included) the futility
move count is `0`: the index clamps to `0` and the table's zero entry is the
untouched zero initialization, not `3 + 0^1.4`. -/
theorem futilityMoveCount_zero_below_depth_one :
    (∀ (d : ℚ) (improving : Bool), d < 1 → futilityMoveCount d improving = 0)
    ∧ FutilityMC 0 = 0 ∧ FutilityMC 0 ≠ 3 + intPow14 0 := by
  refine ⟨?_, rfl, by decide⟩
  intro d imp hd
  have hc : cppTrunc d ≤ 0 := by
    unfold cppTrunc
    split
    · next h =>
      have hlt : ⌊d⌋ < (1 : ℤ) := Int.floor_lt.2 (by exact_mod_cast hd)
      omega
    · next h => exact Int.ceil_le.2 (by exact_mod_cast le_of_lt (lt_of_not_ge h))
  have hmax : max (cppTrunc d) 0 = 0 := max_eq_right hc
  unfold futilityMoveCount
  rw [hmax]
  simp [FutilityMC]

theorem futilityMoveCount_zero_below_depth_one_witness :
    futilityMoveCount (1 / 2) true = 0 :=
  futilityMoveCount_zero_below_depth_one.1 (1 / 2) true (by norm_num)

/-- C5: with base reduction `r = lut[int(d)] * lut[moveCount]`, a
principal-variation node gets `max(r - delta/rootDelta, 0)` and a
non-principal-variation node gets `r + 1` exactly when the improvement is
non-positive and `r > 1`, else `r`. -/
theorem reduction_node_type_spec (lut : ℕ → ℚ) (d : ℚ) (moveCount : ℕ)
    (improvement : ℤ) (delta rootDelta : ℤ) (hd : 0 < d) (hmc : 0 < moveCount) :
    reductionLMR true lut d moveCount improvement delta rootDelta
      = max (lut (cppTrunc d).toNat * lut moveCount - (delta : ℚ) / (rootDelta : ℚ)) 0
    ∧ reductionLMR false lut d moveCount improvement delta rootDelta
      = (if improvement ≤ 0 ∧ 1 < lut (cppTrunc d).toNat * lut moveCount
         then lut (cppTrunc d).toNat * lut moveCount + 1
         else lut (cppTrunc d).toNat * lut moveCount) := by
  constructor
  · rfl
  · by_cases h : improvement ≤ 0 ∧ 1 < lut (cppTrunc d).toNat * lut moveCount
    · simp [reductionLMR, h]
    · simp [reductionLMR, h]

theorem reduction_node_type_spec_witness :
    reductionLMR true (fun n => (n : ℚ)) 2 3 0 1 2
      = max ((((cppTrunc 2).toNat : ℚ)) * ((3 : ℕ) : ℚ) - ((1 : ℤ) : ℚ) / ((2 : ℤ) : ℚ)) 0
    ∧ reductionLMR false (fun n => (n : ℚ)) 2 3 0 1 2
      = (if (0 : ℤ) ≤ 0 ∧ 1 < (((cppTrunc 2).toNat : ℚ)) * ((3 : ℕ) : ℚ)
         then (((cppTrunc 2).toNat : ℚ)) * ((3 : ℕ) : ℚ) + 1
         else (((cppTrunc 2).toNat : ℚ)) * ((3 : ℕ) : ℚ)) :=
  reduction_node_type_spec (fun n => (n : ℚ)) 2 3 0 1 2 (by norm_num) (by norm_num)

/-- C6 counterexample: the sub-table obtained from `ContinuationHistory` by
indexing with the opponent-four flag and the previous move's cell is a
`MoveHistory` — it does not have the shape of `MainHistory`. -/
theorem continuationHistory_subtable_ne_mainHistory :
    ContinuationHistorySubSig ≠ MainHistorySig := by
  decide

/-- C6 amended: `ContinuationHistory` is indexed first by the opponent-four
flag and then by the previous move's cell, and this yields a sub-table
indexed by the current move's cell only — a one-dimensional table with the
same range `10692` as `MainHistory`, not a `MainHistory`-shaped table. -/
theorem continuationHistory_shape :
    ContinuationHistoryOuterDims = [OPPO4_NB, FULL_BOARD_CELL_COUNT]
    ∧ ContinuationHistorySubSig.range = 10692
    ∧ ContinuationHistorySubSig.dims = [FULL_BOARD_CELL_COUNT]
    ∧ MainHistorySig.range = ContinuationHistorySubSig.range
    ∧ ContinuationHistorySubSig.dims ≠ MainHistorySig.dims :=
  ⟨rfl, rfl, rfl, rfl, by decide⟩

lemma recordEntry_cancel :
    ∀ (cache : List MoveCacheEntry), NoConsecInverse cache →
      ∀ e : MoveCacheEntry, recordEntry (recordEntry cache e) e.inv = cache
  | [], _, e => by simp [recordEntry]
  | x :: rest, h, e => by
    by_cases hx : e = x.inv
    · have hex : e.inv = x := by
        rw [hx]
        cases x
        rfl
      simp only [recordEntry, if_pos hx]
      cases rest with
      | nil => simp [recordEntry, hex]
      | cons y r2 =>
        have hxy : x ≠ y.inv := h.1
        simp only [recordEntry, hex, if_neg hxy]
    · simp only [recordEntry, if_neg hx]
      simp [recordEntry]

/-- C7: the evaluator's make/undo pair is an identity at the public
interface — `applyMove` immediately followed by `undoMove` restores the
accumulator to identical state — and a `beforeMove`/`afterUndo` pair
recorded in the deferred move cache with no intervening flush collapses,
leaving the cache exactly as it was before either notification. -/
theorem evaluator_make_undo_roundtrip :
    (∀ (feat : Feat) (p : Fin FULL_BOARD_CELL_COUNT) (c : Color) (acc : Accumulator),
        acc.board p = Color.empty →
        undoMove feat p (applyMove feat p c acc) = acc)
    ∧ (∀ (cache : List MoveCacheEntry), NoConsecInverse cache →
        ∀ (p : Fin FULL_BOARD_CELL_COUNT) (c : Color),
          recordEntry (recordEntry cache (beforeMoveEntry p c)) (afterUndoEntry p c)
            = cache) := by
  constructor
  · intro feat p c acc h
    obtain ⟨board, fm, vs⟩ := acc
    simp only at h
    have hb : Function.update (Function.update board p c) p Color.empty = board := by
      rw [Function.update_idem, ← h, Function.update_eq_self]
    unfold undoMove applyMove
    simp only [hb]
    congr 1
    · funext q
      ring
    · rw [Finset.sum_sub_distrib, Finset.sum_sub_distrib]
      ring
  · intro cache h p c
    have hrw : afterUndoEntry p c = (beforeMoveEntry p c).inv := rfl
    rw [hrw]
    exact recordEntry_cancel cache h (beforeMoveEntry p c)

theorem evaluator_make_undo_roundtrip_witness :
    ((Accumulator.mk (fun _ => Color.empty) (fun _ => 0) 0).board
        ⟨0, by norm_num [FULL_BOARD_CELL_COUNT]⟩ = Color.empty)
    ∧ undoMove (fun _ _ => 0) ⟨0, by norm_num [FULL_BOARD_CELL_COUNT]⟩
        (applyMove (fun _ _ => 0) ⟨0, by norm_num [FULL_BOARD_CELL_COUNT]⟩ Color.black
          (Accumulator.mk (fun _ => Color.empty) (fun _ => 0) 0))
        = Accumulator.mk (fun _ => Color.empty) (fun _ => 0) 0
    ∧ recordEntry
        (recordEntry [] (beforeMoveEntry ⟨0, by norm_num [FULL_BOARD_CELL_COUNT]⟩ Color.black))
        (afterUndoEntry ⟨0, by norm_num [FULL_BOARD_CELL_COUNT]⟩ Color.black) = [] :=
  ⟨rfl,
   evaluator_make_undo_roundtrip.1 _ _ _ _ rfl,
   evaluator_make_undo_roundtrip.2 [] trivial _ _⟩

end Rapfi
